import Mathlib

/-!
Verification development for the flatten–locate–splice engine of the
PII-reviewer repository.  The definitions below are a shallow embedding of
the JavaScript sources (`openxml-edit.js` in its two observed variants and
`eval.js`): JS strings become `List Char`, the parsed XML run objects become
the `Run` structure, the per-character position map becomes `List MapEntry`
with the source's literal `-1` / `-2` sentinel offsets, and the in-place
mutation of `struct.plist` / `struct.map` becomes explicit state passing.
`JSON.parse(JSON.stringify(x))` (the source's `clone`) is the identity on
this pure data, so it is not modelled separately.
-/

namespace PiiRev

/-- A leaf value of a parsed `w:rPr` property, as produced by the XML parser:
either an empty object (`<w:b/>` with attributes kept), an object carrying a
`w:val` attribute, or a bare string (the parser yields `""` for some empty
tags).  Truthiness and `?.["w:val"]` access are the two observations the
source makes of such values. -/
inductive JLeaf where
  | emptyObj : JLeaf
  | valObj : String → JLeaf
  | str : String → JLeaf
deriving DecidableEq

/-- JS truthiness of a property value: objects are truthy, a string is truthy
iff non-empty. -/
def JLeaf.truthy : JLeaf → Bool
  | .emptyObj => true
  | .valObj _ => true
  | .str s => s ≠ ""

/-- The source's `x?.["w:val"]` access on a property value. -/
def JLeaf.wval : JLeaf → Option String
  | .valObj v => some v
  | _ => none

/-- A run-properties object (`w:rPr`).  The keys the source reads or writes
(`w:b`, `w:i`, `w:u`, `w:color`) are explicit fields; every other key is kept
verbatim in `others`. -/
structure RPr where
  b : Option JLeaf
  i : Option JLeaf
  u : Option JLeaf
  color : Option JLeaf
  others : List (String × JLeaf)
deriving DecidableEq

/-- The empty properties object `{}`. -/
def RPr.empty : RPr := ⟨none, none, none, none, []⟩

/-- `Object.keys(pr).length == 0` for a properties object. -/
def RPr.isEmpty (m : RPr) : Bool :=
  m.b.isNone && m.i.isNone && m.u.isNone && m.color.isNone && m.others.isEmpty

/-- A `w:t` node: either parsed as a bare string or as an object with a
`#text` payload (the form `mkRun` writes, together with
`xml:space="preserve"`).  The only observation the source makes is
`typeof t === "string" ? t : (t?.["#text"] ?? "")`. -/
inductive TNode where
  | plain : List Char → TNode
  | node : List Char → TNode
deriving DecidableEq

/-- Text extraction from a `w:t` node, as in the source:
`typeof t === "string" ? t : (t?.["#text"] ?? "")`. -/
def getText : TNode → List Char
  | .plain s => s
  | .node s => s

/-- A run object (`w:r`).  `tabs` and `brs` count the `w:tab` / `w:br`
children (the source only counts them); `others` holds every remaining
opaque key other than `w:rPr`, `w:t`, `w:tab`, `w:br`. -/
structure Run where
  rPr : Option RPr
  t : Option TNode
  tabs : Nat
  brs : Nat
  others : List (String × JLeaf)
deriving DecidableEq

/-- One position-map entry `{p, r, o}`.  `o = -1` marks a synthetic tab/break
space, `o = -2` a synthetic inter-run join space, `o ≥ 0` a real character
offset inside the run's text — exactly the source's encoding. -/
structure MapEntry where
  p : Nat
  r : Nat
  o : Int
deriving DecidableEq

/-- The `struct` returned by `indexRuns`: the per-paragraph run lists
(`plist`), the flattened text (`full`) and the position map (`map`). -/
structure Struct where
  plist : List (List Run)
  full : List Char
  map : List MapEntry
deriving DecidableEq

/-! ## Character classes used by the locator and the join policy -/

/-- The characters matched by the JS regex `\s`. -/
def jsSpaceChars : List Char :=
  [' ', '\t', '\n', '\x0b', '\x0c', '\r', ' ', ' ',
   ' ', ' ', ' ', ' ', ' ', ' ', ' ',
   ' ', ' ', ' ', ' ', ' ', ' ', ' ',
   ' ', '　', '﻿']

/-- Membership in the JS `\s` class. -/
def isJsSpace (c : Char) : Bool := jsSpaceChars.contains c

/-- The fixed punctuation class `[.,;:!?()[\]{}<>$"'\-]` shared by
`hasTokenBoundary` (eval.js) and the join policy of `indexRuns`
(part_001). -/
def boundaryPunct : List Char :=
  ['.', ',', ';', ':', '!', '?', '(', ')', '[', ']', '{', '}', '<', '>',
   '$', '"', '\'', '-']

/-- Whitespace-or-punctuation boundary class of `hasTokenBoundary`. -/
def isBoundaryChar (c : Char) : Bool := isJsSpace c || boundaryPunct.contains c

/-- The selective join policy of `indexRuns` in part_001: add a join space
between two adjacent text runs only when neither adjacent character is
whitespace and the preceding character is alphanumeric with the following
character either alphanumeric or non-punctuation. -/
def shouldAddSpace (lastChar firstChar : Char) : Bool :=
  !isJsSpace lastChar && !isJsSpace firstChar &&
  (((lastChar.isAlpha || lastChar.isDigit) && (firstChar.isAlpha || firstChar.isDigit)) ||
   ((lastChar.isAlpha || lastChar.isDigit) && !boundaryPunct.contains firstChar))

/-- The aggressive join policy of `indexRuns` in part_000: always join two
adjacent non-empty text runs. -/
def alwaysJoin (_lastChar _firstChar : Char) : Bool := true

/-! ## Flattener (`indexRuns`) -/

/-- One iteration of the inner `runs.forEach` of `indexRuns`: append one
synthetic space per `w:tab`/`w:br`, then (for a text-bearing run) the
policy-controlled join space, then the run's text with one `Real` entry per
character.  The accumulator is the pair (`full`, `map`). -/
def flattenRun (policy : Char → Char → Bool) (pIdx rIdx : Nat) (r : Run)
    (acc : List Char × List MapEntry) : List Char × List MapEntry :=
  let ws := r.tabs + r.brs
  let full := acc.1 ++ List.replicate ws ' '
  let map := acc.2 ++ List.replicate ws ⟨pIdx, rIdx, -1⟩
  match r.t with
  | none => (full, map)
  | some tN =>
    let text := getText tN
    let join := !full.isEmpty && !text.isEmpty &&
      policy ((full.getLast?).getD ' ') ((text.head?).getD ' ')
    let fm := if join then (full ++ [' '], map ++ [⟨pIdx, rIdx, -2⟩]) else (full, map)
    (fm.1 ++ text, fm.2 ++ (List.range text.length).map (fun o => ⟨pIdx, rIdx, (o : Int)⟩))

/-- The inner `runs.forEach` of `indexRuns`, with the running run index. -/
def flattenRuns (policy : Char → Char → Bool) (pIdx : Nat) :
    Nat → List Run → List Char × List MapEntry → List Char × List MapEntry
  | _, [], acc => acc
  | rIdx, r :: rs, acc => flattenRuns policy pIdx (rIdx + 1) rs (flattenRun policy pIdx rIdx r acc)

/-- The outer `paragraphs.forEach` of `indexRuns`. -/
def flattenParas (policy : Char → Char → Bool) :
    Nat → List (List Run) → List Char × List MapEntry → List Char × List MapEntry
  | _, [], acc => acc
  | pIdx, runs :: ps, acc => flattenParas policy (pIdx + 1) ps (flattenRuns policy pIdx 0 runs acc)

/-- `indexRuns` over an already-parsed document (a list of paragraphs, each a
list of runs).  The join policy is the one behavioural divergence between the
two observed source variants, so it is an explicit parameter: part_001 is
`indexRuns shouldAddSpace`, part_000 is `indexRuns alwaysJoin`. -/
def indexRuns (policy : Char → Char → Bool) (plist : List (List Run)) : Struct :=
  let fm := flattenParas policy 0 plist ([], [])
  ⟨plist, fm.1, fm.2⟩

/-! ## Style classifier and overlays -/

/-- Membership of a color string in the accepted red-variant set, the JS
regex `/^(FF0000|C00000|E00000)$/i`. -/
def isRedVariant (c : String) : Bool :=
  let up := c.toList.map Char.toUpper
  up == "FF0000".toList || up == "C00000".toList || up == "E00000".toList

/-- `isBoldRed` from part_001: truthy `w:b` and a red-variant
`w:color.w:val`; absent properties never match. -/
def isBoldRed : Option RPr → Bool
  | none => false
  | some m =>
    let hasBold := (m.b.map JLeaf.truthy).getD false
    let redish := match m.color.bind JLeaf.wval with
      | some c => c != "" && isRedVariant c
      | none => false
    hasBold && redish

/-- `isRed` from part_000: a red-variant `w:color.w:val` alone; the bold key
is never consulted. -/
def isRed : Option RPr → Bool
  | none => false
  | some m =>
    match m.color.bind JLeaf.wval with
    | some c => c != "" && isRedVariant c
    | none => false

/-- `overlayExact(rPr, wasBoldRed)`: force italic, single underline and red
color onto the mapping (the source writes these fields into `out = rPr || {}`
and returns `out`; the second parameter is never read). -/
def overlayExact (rPr : Option RPr) (_wasBoldRed : Bool) : RPr :=
  let out := rPr.getD RPr.empty
  { out with i := some JLeaf.emptyObj, u := some (JLeaf.valObj "single"),
             color := some (JLeaf.valObj "FF0000") }

/-- `overlayBrown(rPr)`: force single underline and brown color. -/
def overlayBrown (rPr : Option RPr) : RPr :=
  let out := rPr.getD RPr.empty
  { out with u := some (JLeaf.valObj "single"),
             color := some (JLeaf.valObj "7B3F00") }

/-- Call-level semantics of `overlayExact`: the source aliases the argument
(`const out = rPr || {}`) and assigns the forced fields through that alias,
so a call returns the computed mapping and, when the argument was an actual
object, that argument now holds the same computed mapping.  The pair is
(returned value, post-call contents of the argument object). -/
def overlayExactCall (rPr : Option RPr) (wasBoldRed : Bool) : RPr × Option RPr :=
  (overlayExact rPr wasBoldRed, rPr.map (fun _ => overlayExact rPr wasBoldRed))

/-- Call-level semantics of `overlayBrown`, as for `overlayExactCall`. -/
def overlayBrownCall (rPr : Option RPr) : RPr × Option RPr :=
  (overlayBrown rPr, rPr.map (fun _ => overlayBrown rPr))

/-! ## Splicer (`applyStyleToRange`) -/

/-- JS array indexing `l[i]` with a possibly non-natural index: `undefined`
is `none`. -/
def jsIndex {α : Type} (l : List α) (i : Int) : Option α :=
  if 0 ≤ i then l.get? i.toNat else none

/-- Clamping of one `String.prototype.slice` index: negative indices count
from the end, and both directions clamp to the string bounds. -/
def jsSliceIndex (len : Nat) (i : Int) : Nat :=
  if i < 0 then (len + i).toNat else min i.toNat len

/-- JS `txt.slice(s, e)` on a list of characters. -/
def jsSlice (l : List Char) (s e : Int) : List Char :=
  (l.take (jsSliceIndex l.length e)).drop (jsSliceIndex l.length s)

/-- The run constructor `mkRun(text, pr)` of `applyStyleToRange`: the
properties key is written only when the mapping is non-empty, and the text is
written in `#text`/`xml:space="preserve"` form. -/
def mkRun (text : List Char) (pr : RPr) : Run :=
  { rPr := if pr.isEmpty then none else some pr
    t := some (TNode.node text)
    tabs := 0, brs := 0, others := [] }

/-- `Object.assign(runsNew[0], copyNonTextChildren(rNode))`: copy every key
of the original run other than `w:rPr` and `w:t` (that is: the `w:tab` and
`w:br` markers and all opaque children) onto the first replacement fragment
only. -/
def applyExtrasToHead (src : Run) : List Run → List Run
  | [] => []
  | r :: rs => { r with tabs := src.tabs, brs := src.brs, others := src.others } :: rs

/-- Inner insertion loop of the per-paragraph map rebuild: for each character
offset of one rebuilt run, `map.splice(paraStartIdx + 0, 0, entry)`; the
insertion index is the fixed `paraStartIdx` (clamped to the array length, as
`splice` does).  The countdown argument is the number of offsets left. -/
def insertOffsets (p rIdx paraStart : Nat) : Nat → Nat → List MapEntry → List MapEntry
  | _, 0, map => map
  | off, k + 1, map =>
      insertOffsets p rIdx paraStart (off + 1) k
        (map.insertIdx (min paraStart map.length) ⟨p, rIdx, (off : Int)⟩)

/-- Outer loop of the per-paragraph map rebuild: runs without a `w:t` key are
skipped (so tab/break and join synthetics are never re-created). -/
def rebuildRunsLoop (p paraStart : Nat) : Nat → List Run → List MapEntry → List MapEntry
  | _, [], map => map
  | rIdx, r :: rs, map =>
    let map' := match r.t with
      | none => map
      | some tN => insertOffsets p rIdx paraStart 0 (getText tN).length map
    rebuildRunsLoop p paraStart (rIdx + 1) rs map'

/-- The full map rebuild performed after a run splice: find the first global
index of the paragraph (a missing paragraph yields JS `null + 0 = 0`), remove
every entry of that paragraph, then insert the rebuilt entries. -/
def rebuildParaMap (p : Nat) (newRuns : List Run) (map : List MapEntry) : List MapEntry :=
  let paraStart := (map.findIdx? (fun en => en.p == p)).getD 0
  let removed := map.filter (fun en => en.p != p)
  rebuildRunsLoop p paraStart 0 newRuns removed

/-- The cursor loop of `applyStyleToRange` (part_001 variant, which has no
null guards inside the loop).  The state is the pair (`plist`, `map`); the
final `Bool` records whether a JS `TypeError` escaped (a stale map entry
making `plist[pos.p]` or `pRuns[pos.r]` resolve to `undefined`, so that the
following property access throws).  The loop is written with explicit fuel;
`applyStyleToRange` passes `stop - start` fuel, which bounds the iteration
count of every terminating JS execution (each JS iteration advances the
cursor by at least one, and an execution where an iteration failed to
advance would never terminate in JS). -/
def spliceLoop (styler : RPr → Bool → RPr) (stop : Int) :
    Nat → Int → List (List Run) → List MapEntry → List (List Run) × List MapEntry × Bool
  | 0, _, plist, map => (plist, map, false)
  | fuel + 1, i, plist, map =>
    if i < stop then
      match jsIndex map i with
      | none => (plist, map, true)
      | some pos =>
        match plist.get? pos.p with
        | none => (plist, map, true)
        | some pRuns =>
          match pRuns.get? pos.r with
          | none => (plist, map, true)
          | some rNode =>
            if pos.o = -1 ∨ pos.o = -2 then
              spliceLoop styler stop fuel (i + 1) plist map
            else match rNode.t with
              | none => spliceLoop styler stop fuel (i + 1) plist map
              | some tN =>
                let txt := getText tN
                let remainingInRun : Int := (txt.length : Int) - pos.o
                let take : Int := min remainingInRun (stop - i)
                let beforeText := jsSlice txt 0 pos.o
                let midText := jsSlice txt pos.o (pos.o + take)
                let afterText := jsSlice txt (pos.o + take) (txt.length : Int)
                let baseRPr := rNode.rPr.getD RPr.empty
                let styledRPr := styler baseRPr (isBoldRed (some baseRPr))
                let runsNew :=
                  (if beforeText.isEmpty then [] else [mkRun beforeText baseRPr]) ++
                  [mkRun midText styledRPr] ++
                  (if afterText.isEmpty then [] else [mkRun afterText baseRPr])
                let runsNew := applyExtrasToHead rNode runsNew
                let pRuns' := pRuns.take pos.r ++ runsNew ++ pRuns.drop (pos.r + 1)
                let plist' := plist.set pos.p pRuns'
                let map' := rebuildParaMap pos.p pRuns' map
                spliceLoop styler stop fuel (i + take) plist' map'
    else (plist, map, false)

/-- `applyStyleToRange(struct, start, end, styler)` (part_001): the guard
rejects any range with `start < 0`, `end <= start` or `end > map.length`
before any mutation; afterwards the cursor loop splits and restyles runs.
The result pairs the final structure with the escaped-exception flag. -/
def applyStyleToRange (st : Struct) (start stop : Int) (styler : RPr → Bool → RPr) :
    Struct × Bool :=
  if start < 0 ∨ stop ≤ start ∨ stop > (st.map.length : Int) then (st, false)
  else
    match jsIndex st.map start, jsIndex st.map (stop - 1) with
    | some _, some _ =>
      let r := spliceLoop styler stop (stop - start).toNat start st.plist st.map
      ({ st with plist := r.1, map := r.2.1 }, r.2.2)
    | _, _ => (st, false)

/-! ## Locator (`findAll` / `findAllOccurrences`, `hasTokenBoundary`) -/

/-- Whether `value` occurs in `text` at position `j` (with the whole match
inside the text). -/
def occursAt (text value : List Char) (j : Nat) : Bool :=
  (text.drop j).take value.length == value

/-- JS `text.indexOf(value, fromIdx)` for a non-empty needle: the least
position `j ≥ fromIdx` at which `value` occurs, if any. -/
def jsIndexOf (text value : List Char) (fromIdx : Nat) : Option Nat :=
  (List.range (text.length + 1)).find? (fun j => decide (fromIdx ≤ j) && occursAt text value j)

/-- The scan loop of `findAll`: repeated `indexOf` from the end of the
previous match.  The fuel `text.length + 1` dominates the iteration count
(each iteration advances the scan position by at least one character). -/
def findAllGo (text value : List Char) : Nat → Nat → List (Nat × Nat)
  | 0, _ => []
  | fuel + 1, i =>
    if i < text.length then
      match jsIndexOf text value i with
      | none => []
      | some j => (j, j + value.length) :: findAllGo text value fuel (j + value.length)
    else []

/-- `findAll(text, value)` from openxml-edit.js: non-overlapping left-to-right
occurrences as half-open ranges; an empty value yields no hits. -/
def findAll (text value : List Char) : List (Nat × Nat) :=
  if value.isEmpty then [] else findAllGo text value (text.length + 1) 0

/-- `findAllOccurrences(text, needle)` from eval.js — the same scan. -/
def findAllOccurrences (text needle : List Char) : List (Nat × Nat) :=
  if needle.isEmpty then [] else findAllGo text needle (text.length + 1) 0

/-- `hasTokenBoundary(full, start, end)` from eval.js: the character before
`start` (replaced by a space when `start <= 0`) and the character at `end`
(replaced by a space when `end >= full.length`) must both be in the boundary
class.  An out-of-range lookup yields JS `undefined`, on which the boundary
regex fails, hence `none ↦ false`. -/
def hasTokenBoundary (full : List Char) (start stop : Nat) : Bool :=
  let left : Option Char := if start ≤ 0 then some ' ' else full.get? (start - 1)
  let right : Option Char := if stop ≥ full.length then some ' ' else full.get? stop
  ((left.map isBoundaryChar).getD false) && ((right.map isBoundaryChar).getD false)

/-! ## Orchestrator pieces (`spanWasBoldRed`, the per-detection body of
`annotateDocxWithDetections` in part_001) -/

/-- Inner loop of `spanWasBoldRed`: every covered character's run must be
bold+red.  `none` models a thrown `TypeError` (stale entry). -/
def spanLoop (st : Struct) (stop : Int) : Nat → Int → Option Bool
  | 0, _ => some true
  | fuel + 1, k =>
    if k < stop then
      match jsIndex st.map k with
      | none => none
      | some pos =>
        match st.plist.get? pos.p with
        | none => none
        | some pRuns =>
          match pRuns.get? pos.r with
          | none => none
          | some rNode =>
            if isBoldRed rNode.rPr then spanLoop st stop fuel (k + 1) else some false
    else some true

/-- `spanWasBoldRed(struct, start, end)` (part_001): `false` on an invalid
range, otherwise every covered character's run must classify as bold+red. -/
def spanWasBoldRed (st : Struct) (start stop : Int) : Option Bool :=
  if start < 0 ∨ stop ≤ start ∨ stop > (st.map.length : Int) then some false
  else spanLoop st stop (stop - start).toNat start

/-- The per-range loop of a single detection in `annotateDocxWithDetections`
(part_001): for the `j`-th range found in the externally extracted text, the
`j`-th occurrence of the value in the Flattener's text (if any) is classified
and spliced.  Each range body runs inside a `try`/`catch`, so a thrown
`TypeError` leaves the state as it was at the throw point and processing
continues with the next range. -/
def processRanges (val : List Char) : Nat → List (Nat × Nat) → Struct → Struct
  | _, [], st => st
  | j, _ :: rest, st =>
    let xmlRanges := findAll st.full val
    let st' := match xmlRanges.get? j with
      | none => st
      | some se =>
        match spanWasBoldRed st (se.1 : Int) (se.2 : Int) with
        | none => st
        | some wasBR =>
          (applyStyleToRange st (se.1 : Int) (se.2 : Int)
            (fun rPr _ => if wasBR then overlayExact (some rPr) true
                          else overlayBrown (some rPr))).1
    processRanges val (j + 1) rest st'

/-- The body of one detection iteration of `annotateDocxWithDetections`
(part_001): skip an empty value; locate the value in the externally
extracted (mammoth) text; when nothing is found the document structure is
left untouched; otherwise process each found range. -/
def processDetection (mammothFull : List Char) (st : Struct) (value : List Char) : Struct :=
  if value.isEmpty then st
  else
    let ranges := findAll mammothFull value
    if ranges.isEmpty then st
    else processRanges value 0 ranges st

/-! ## Specification-side predicates (stated from the spec's words, for
comparison with the source-embedded definitions) -/

/-- The boundary predicate exactly as the specification words it: the
character immediately before `start` and the character at `end` are each
either absent (beyond the string edge) or a member of the boundary class. -/
def claimBoundary (full : List Char) (start stop : Nat) : Bool :=
  (if start = 0 then true else
    match full.get? (start - 1) with
    | none => true
    | some c => isBoundaryChar c) &&
  (if full.length ≤ stop then true else
    match full.get? stop with
    | none => true
    | some c => isBoundaryChar c)

/-- The boundary predicate as the code actually behaves: the left lookup
is treated as a boundary only at `start = 0`; a `start` beyond the string
end makes the left test fail (`undefined` does not match the regex). -/
def amendedBoundary (full : List Char) (start stop : Nat) : Bool :=
  (if start = 0 then true else
    match full.get? (start - 1) with
    | none => false
    | some c => isBoundaryChar c) &&
  (if full.length ≤ stop then true else
    match full.get? stop with
    | none => false
    | some c => isBoundaryChar c)

/-- The ground-truth predicate as the claim words it: the bold key is
present and the color value is in the accepted red-variant set. -/
def claimGroundTruth : Option RPr → Bool
  | none => false
  | some m =>
    m.b.isSome &&
    (match m.color.bind JLeaf.wval with
     | some c => isRedVariant c
     | none => false)

/-- Truthiness of the bold key, the first half of `isBoldRed`. -/
def boldTruthy : Option RPr → Bool
  | none => false
  | some m => (m.b.map JLeaf.truthy).getD false

/-- The red-color test shared by `isBoldRed` and `isRed`. -/
def redOk : Option RPr → Bool
  | none => false
  | some m =>
    match m.color.bind JLeaf.wval with
    | some c => c != "" && isRedVariant c
    | none => false

/-- Concatenated run texts of a paragraph (its contribution to rendered
text, ignoring synthesized spaces). -/
def runTexts (rs : List Run) : List Char :=
  (rs.map (fun r => (r.t.map getText).getD [])).flatten

/-! ## Concrete documents used as witnesses and failing inputs -/

/-- The orchestrator's styler for a non-ground-truth span. -/
def stylerBrown : RPr → Bool → RPr := fun rPr _ => overlayBrown (some rPr)

/-- One paragraph, one run `"abc"`, no properties. -/
def abcStruct : Struct :=
  indexRuns shouldAddSpace [[⟨none, some (.plain "abc".toList), 0, 0, []⟩]]

/-- One paragraph: a run holding one tab marker, then a run `"ab"`. -/
def tabStruct : Struct :=
  indexRuns shouldAddSpace [[⟨none, none, 1, 0, []⟩, ⟨none, some (.plain "ab".toList), 0, 0, []⟩]]

/-- One paragraph, runs `"ab."` and `"cd"` (no join space is synthesized
because `.` is not alphanumeric), flattened text `"ab.cd"`. -/
def twoRunStruct : Struct :=
  indexRuns shouldAddSpace
    [[⟨none, some (.plain "ab.".toList), 0, 0, []⟩,
      ⟨none, some (.plain "cd".toList), 0, 0, []⟩]]

/-- Bold + red properties, as in the specification's scenario. -/
def koenigRPr : RPr := ⟨some .emptyObj, none, none, some (.valObj "FF0000"), []⟩

/-- The scenario run: text `"Dr. Andreas König"`, bold + red. -/
def koenigRun : Run := ⟨some koenigRPr, some (.plain "Dr. Andreas König".toList), 0, 0, []⟩

/-- The scenario document: one paragraph, one run. -/
def koenigStruct : Struct := indexRuns shouldAddSpace [[koenigRun]]

/-- The orchestrator's styler for a ground-truth span. -/
def stylerExact : RPr → Bool → RPr := fun rPr _ => overlayExact (some rPr) true

/-- A properties object with only a bold key. -/
def pBoldOnly : RPr := ⟨some .emptyObj, none, none, none, []⟩

/-! ## Claim theorems -/

/-- C1 (code_bug evidence): after `applyStyleToRange` splits a run, the
rebuilt position-map entries for the paragraph are in reversed order (every
entry is inserted at the fixed index `paraStartIdx`), so the `Real` offsets
of a run appear strictly decreasing instead of increasing; and the rebuild
drops synthetic entries (for `tabStruct`, whose initial map has the
synthetic tab entry `⟨0, 0, -1⟩`, the post-splice map has only the two real
entries, so the count no longer matches the flattened text). -/
theorem rebuild_reverses_and_drops_synthetics :
    (applyStyleToRange abcStruct 0 2 stylerBrown).1.map =
      [⟨0, 1, 0⟩, ⟨0, 0, 1⟩, ⟨0, 0, 0⟩] ∧
    tabStruct.map = [⟨0, 0, -1⟩, ⟨0, 1, 0⟩, ⟨0, 1, 1⟩] ∧
    (applyStyleToRange tabStruct 1 2 stylerBrown).1.map = [⟨0, 2, 0⟩, ⟨0, 1, 0⟩] := by
  decide

/-- C2 (code_bug evidence): on `twoRunStruct` (flattened text `"ab.cd"`),
styling the range `[1, 5)` consumes run 0 correctly, but the corrupted
(reversed) rebuilt map makes the next iteration re-style the already-styled
middle fragment `"b."` instead of `"cd"`: in the final structure the run
owning the in-range characters `'c'` and `'d'` (originally map entry
`⟨0, 1, 0⟩` at position 3) still has no properties at all, so those `Real`
characters never received the overlay. -/
theorem splice_misses_chars_in_multirun_range :
    twoRunStruct.full = "ab.cd".toList ∧
    twoRunStruct.map.get? 3 = some ⟨0, 1, 0⟩ ∧
    (applyStyleToRange twoRunStruct 1 5 stylerBrown).1.plist =
      [[⟨none, some (.node "a".toList), 0, 0, []⟩,
        ⟨some ⟨none, none, some (.valObj "single"), some (.valObj "7B3F00"), []⟩,
         some (.node "b.".toList), 0, 0, []⟩,
        ⟨none, some (.plain "cd".toList), 0, 0, []⟩]] := by
  decide

/-- C10: a range violating `0 <= start < end <= positionMap.length` makes
`applyStyleToRange` return before any mutation: the structure (document,
runs, properties and position map) is returned exactly as it was, with no
exception. -/
theorem applyStyleToRange_invalid_range_noop (st : Struct) (start stop : Int)
    (styler : RPr → Bool → RPr)
    (h : start < 0 ∨ stop ≤ start ∨ stop > (st.map.length : Int)) :
    applyStyleToRange st start stop styler = (st, false) := by
  unfold applyStyleToRange
  rw [if_pos h]

/-- Witness for C10 at the concrete invalid range `start = -1`. -/
theorem applyStyleToRange_invalid_range_noop_witness :
    applyStyleToRange abcStruct (-1) 2 stylerBrown = (abcStruct, false) :=
  applyStyleToRange_invalid_range_noop abcStruct (-1) 2 stylerBrown (Or.inl (by decide))

/-- C8 (counterexample): `isRed` of part_000 never consults the bold key, so
a properties object with a red color but no bold key classifies as ground
truth, although the claim's fixed predicate (bold present AND color in the
red-variant set) is false there. -/
theorem isRed_ignores_bold_counterexample :
    isRed (some ⟨none, none, none, some (.valObj "FF0000"), []⟩) = true ∧
    claimGroundTruth (some ⟨none, none, none, some (.valObj "FF0000"), []⟩) = false := by
  decide

/-- C8 (amended): both classifiers are total and treat absent properties as
non-matching; `isBoldRed` returns true exactly when the bold key is present
with a truthy value and the color resolves to a red variant
(case-insensitively), while `isRed` tests the color alone and ignores bold
entirely. -/
theorem classifier_total_and_characterized :
    (∀ rPr, isBoldRed rPr = (boldTruthy rPr && redOk rPr)) ∧
    (∀ rPr, isRed rPr = redOk rPr) ∧
    isBoldRed none = false ∧ isRed none = false ∧
    (∀ m : RPr, m.b = none → isBoldRed (some m) = false) ∧
    (∀ m : RPr, m.color = none → isBoldRed (some m) = false ∧ isRed (some m) = false) := by
  refine ⟨fun rPr => ?_, fun rPr => ?_, rfl, rfl, fun m hb => ?_, fun m hc => ?_⟩
  · cases rPr <;> rfl
  · cases rPr <;> rfl
  · simp [isBoldRed, hb]
  · constructor <;> simp [isBoldRed, isRed, hc]

/-- Witness for C8's amended theorem at concrete inputs with a missing bold
key and a missing color key. -/
theorem classifier_total_and_characterized_witness :
    isBoldRed (some RPr.empty) = false ∧ isRed (some RPr.empty) = false :=
  ⟨classifier_total_and_characterized.2.2.2.2.1 RPr.empty rfl,
   (classifier_total_and_characterized.2.2.2.2.2 RPr.empty rfl).2⟩

/-- C9 (counterexample): the overlays are not pure functions returning a
fresh mapping — the source writes through the alias `out = rPr || {}`, so
after a call the argument object holds the overlaid mapping (equal to the
returned value) rather than its original contents. -/
theorem overlay_mutates_input_counterexample :
    (overlayBrownCall (some pBoldOnly)).2 ≠ some pBoldOnly ∧
    (overlayBrownCall (some pBoldOnly)).2 = some (overlayBrownCall (some pBoldOnly)).1 ∧
    (overlayExactCall (some pBoldOnly) false).2 ≠ some pBoldOnly ∧
    (overlayExactCall (some pBoldOnly) false).2 = some (overlayExactCall (some pBoldOnly) false).1 := by
  decide

/-- C9 (amended): each overlay forces exactly its own keys (`overlayExact`:
italic, underline, red color; `overlayBrown`: underline, brown color),
preserves every unrelated key of the input unchanged, and is idempotent;
but instead of returning a distinct fresh mapping, a call mutates its
non-null argument in place, leaving the argument equal to the result. -/
theorem overlay_forced_keys_idempotent :
    (∀ rPr w, (overlayExact rPr w).i = some JLeaf.emptyObj ∧
       (overlayExact rPr w).u = some (JLeaf.valObj "single") ∧
       (overlayExact rPr w).color = some (JLeaf.valObj "FF0000") ∧
       (overlayExact rPr w).b = (rPr.getD RPr.empty).b ∧
       (overlayExact rPr w).others = (rPr.getD RPr.empty).others) ∧
    (∀ rPr, (overlayBrown rPr).u = some (JLeaf.valObj "single") ∧
       (overlayBrown rPr).color = some (JLeaf.valObj "7B3F00") ∧
       (overlayBrown rPr).b = (rPr.getD RPr.empty).b ∧
       (overlayBrown rPr).i = (rPr.getD RPr.empty).i ∧
       (overlayBrown rPr).others = (rPr.getD RPr.empty).others) ∧
    (∀ rPr w w', overlayExact (some (overlayExact rPr w)) w' = overlayExact rPr w) ∧
    (∀ rPr, overlayBrown (some (overlayBrown rPr)) = overlayBrown rPr) ∧
    (∀ rPr w, (overlayExactCall rPr w).2 = rPr.map (fun _ => (overlayExactCall rPr w).1)) ∧
    (∀ rPr, (overlayBrownCall rPr).2 = rPr.map (fun _ => (overlayBrownCall rPr).1)) := by
  refine ⟨fun rPr w => ⟨rfl, rfl, rfl, rfl, rfl⟩, fun rPr => ⟨rfl, rfl, rfl, rfl, rfl⟩,
    fun rPr w w' => rfl, fun rPr => rfl, fun rPr w => rfl, fun rPr => rfl⟩

/-- C7 (counterexample): the claim reads `hasTokenBoundary` as true whenever
both neighbouring characters are absent or in the boundary class; but for a
`start` beyond the string end the code looks up `full[start - 1]`, obtains
`undefined`, and the boundary regex fails, so the call returns false where
the claim's reading returns true. -/
theorem hasTokenBoundary_edge_counterexample :
    hasTokenBoundary "ab".toList 4 4 = false ∧ claimBoundary "ab".toList 4 4 = true := by
  decide

/-- C7 (amended): `hasTokenBoundary(text, start, end)` is true iff the
character before `start` (treated as a boundary exactly when `start = 0`,
and as a failure when `start - 1` is past the end) and the character at
`end` (treated as a boundary when `end ≥ length`) are both in the fixed
whitespace-or-punctuation class; in particular the interior match of
`"art"` inside `"startup"` is rejected. -/
theorem hasTokenBoundary_characterization :
    (∀ full start stop, hasTokenBoundary full start stop = amendedBoundary full start stop) ∧
    hasTokenBoundary "startup".toList 2 5 = false := by
  refine ⟨fun full start stop => ?_, by decide⟩
  unfold hasTokenBoundary amendedBoundary
  have hsp : isBoundaryChar ' ' = true := by decide
  by_cases h1 : start = 0
  · subst h1
    rw [if_pos (Nat.le_refl 0), if_pos rfl]
    by_cases h2 : full.length ≤ stop
    · rw [if_pos (show stop ≥ full.length from h2), if_pos h2]
      decide
    · rw [if_neg (show ¬ stop ≥ full.length from h2), if_neg h2]
      cases hg : full.get? stop with
      | none => exact absurd (List.get?_eq_none.mp hg) h2
      | some c => simp [hsp]
  · have h1' : ¬ start ≤ 0 := fun h => h1 (Nat.le_zero.mp h)
    rw [if_neg h1', if_neg h1]
    cases hg : full.get? (start - 1) with
    | none => simp
    | some c =>
      by_cases h2 : full.length ≤ stop
      · rw [if_pos (show stop ≥ full.length from h2), if_pos h2]
        simp [hsp]
      · rw [if_neg (show ¬ stop ≥ full.length from h2), if_neg h2]
        cases hg2 : full.get? stop with
        | none => exact absurd (List.get?_eq_none.mp hg2) h2
        | some c2 => simp

/-! ### C5: no-op on absent values -/

/-- When the value has no occurrence in the Flattener's text, every range
iteration of a detection leaves the structure untouched (the `j`-th
occurrence lookup always misses). -/
theorem processRanges_noop (val : List Char) (st : Struct)
    (h : findAll st.full val = []) :
    ∀ j l, processRanges val j l st = st := by
  intro j l
  induction l generalizing j with
  | nil => rfl
  | cons a rest ih =>
    simp only [processRanges, h, List.get?_nil]
    exact ih (j + 1)

/-- C5: a detection whose value does not occur in the flattened text (either
the externally extracted text that is searched, or the Flattener's text that
is spliced) is a silent per-detection no-op: the document structure is
returned exactly unchanged and no exception escapes. -/
theorem processDetection_noop_on_absent (mammothFull : List Char) (st : Struct)
    (value : List Char)
    (h : findAll mammothFull value = [] ∨ findAll st.full value = []) :
    processDetection mammothFull st value = st := by
  by_cases hv : value.isEmpty
  · simp [processDetection, hv]
  · cases h with
    | inl h => simp [processDetection, hv, h]
    | inr h =>
      by_cases hr : (findAll mammothFull value).isEmpty
      · simp [processDetection, hv, hr]
      · simp only [processDetection, if_neg hv, if_neg hr]
        exact processRanges_noop value st h 0 _

/-- Witness for C5 at a concrete absent value. -/
theorem processDetection_noop_on_absent_witness :
    processDetection "hello".toList abcStruct "xyz".toList = abcStruct :=
  processDetection_noop_on_absent "hello".toList abcStruct "xyz".toList (Or.inl (by decide))

/-! ### C6: the locator's non-overlapping scan -/

/-- A successful `indexOf` returns a position at or after the scan start
where the needle occurs. -/
theorem jsIndexOf_eq_some {text value : List Char} {fromIdx j : Nat}
    (h : jsIndexOf text value fromIdx = some j) :
    fromIdx ≤ j ∧ occursAt text value j = true := by
  unfold jsIndexOf at h
  have hp := List.find?_some h
  simp only [Bool.and_eq_true, decide_eq_true_eq] at hp
  exact hp

/-- Every hit of the scan loop starts at or after the scan position, spans
exactly the needle's length, and is a genuine occurrence. -/
theorem findAllGo_mem (text value : List Char) :
    ∀ fuel i se, se ∈ findAllGo text value fuel i →
      i ≤ se.1 ∧ se.2 = se.1 + value.length ∧ occursAt text value se.1 = true := by
  intro fuel
  induction fuel with
  | zero => intro i se h; simp [findAllGo] at h
  | succ f ih =>
    intro i se h
    unfold findAllGo at h
    by_cases hi : i < text.length
    · rw [if_pos hi] at h
      cases hj : jsIndexOf text value i with
      | none => rw [hj] at h; simp at h
      | some j =>
        rw [hj] at h
        rcases List.mem_cons.mp h with he | hrest
        · obtain ⟨h1, h2⟩ := jsIndexOf_eq_some hj
          subst he
          exact ⟨h1, rfl, h2⟩
        · obtain ⟨ha, hb, hc⟩ := ih (j + value.length) se hrest
          have h1 := (jsIndexOf_eq_some hj).1
          exact ⟨by omega, hb, hc⟩
    · rw [if_neg hi] at h
      simp at h

/-- Successive hits of the scan loop never overlap: each hit ends at or
before the next one starts. -/
theorem findAllGo_pairwise (text value : List Char) :
    ∀ fuel i, (findAllGo text value fuel i).Pairwise (fun a b => a.2 ≤ b.1) := by
  intro fuel
  induction fuel with
  | zero => intro i; simp [findAllGo]
  | succ f ih =>
    intro i
    unfold findAllGo
    by_cases hi : i < text.length
    · rw [if_pos hi]
      cases hj : jsIndexOf text value i with
      | none => simp
      | some j =>
        refine List.Pairwise.cons ?_ (ih (j + value.length))
        intro b hb
        have hm := (findAllGo_mem text value f (j + value.length) b hb).1
        simpa using hm
    · rw [if_neg hi]
      exact List.Pairwise.nil

/-- C6: `findAll` returns left-to-right half-open ranges `[j, j + len)` at
which the value genuinely occurs, and because the scan resumes at the end of
each match, the returned ranges are pairwise non-overlapping (each ends at
or before the next begins); `findAllOccurrences` of eval.js is the same
scan. -/
theorem findAll_nonoverlapping_occurrences (text value : List Char) :
    (∀ se ∈ findAll text value,
        se.2 = se.1 + value.length ∧ occursAt text value se.1 = true) ∧
    (findAll text value).Pairwise (fun a b => a.2 ≤ b.1) ∧
    findAllOccurrences text value = findAll text value := by
  refine ⟨?_, ?_, rfl⟩
  · intro se h
    unfold findAll at h
    by_cases hv : value.isEmpty
    · rw [if_pos hv] at h
      simp at h
    · rw [if_neg hv] at h
      exact ⟨(findAllGo_mem text value _ 0 se h).2.1, (findAllGo_mem text value _ 0 se h).2.2⟩
  · unfold findAll
    by_cases hv : value.isEmpty
    · rw [if_pos hv]
      exact List.Pairwise.nil
    · rw [if_neg hv]
      exact findAllGo_pairwise text value _ 0

/-- Witness for C6: the second hit of `"ab"` in `"abab"`. -/
theorem findAll_nonoverlapping_occurrences_witness :
    (2, 4).2 = (2, 4).1 + "ab".toList.length ∧
    occursAt "abab".toList "ab".toList (2, 4).1 = true :=
  (findAll_nonoverlapping_occurrences "abab".toList "ab".toList).1 (2, 4) (by decide)

/-! ### C3: flattener guarantees -/

/-- `flattenRun` adds the same number of characters and map entries. -/
theorem flattenRun_length (policy : Char → Char → Bool) (pIdx rIdx : Nat) (r : Run)
    (acc : List Char × List MapEntry) (h : acc.2.length = acc.1.length) :
    (flattenRun policy pIdx rIdx r acc).2.length = (flattenRun policy pIdx rIdx r acc).1.length := by
  obtain ⟨full0, map0⟩ := acc
  simp only at h
  unfold flattenRun
  cases ht : r.t with
  | none => simp [h]
  | some tN =>
    simp only []
    split <;> simp [h]

/-- `flattenRuns` preserves the length balance of the accumulator. -/
theorem flattenRuns_length (policy : Char → Char → Bool) (pIdx : Nat) :
    ∀ (rs : List Run) (rIdx : Nat) (acc : List Char × List MapEntry),
      acc.2.length = acc.1.length →
      (flattenRuns policy pIdx rIdx rs acc).2.length =
        (flattenRuns policy pIdx rIdx rs acc).1.length := by
  intro rs
  induction rs with
  | nil => intro rIdx acc h; exact h
  | cons r rs ih =>
    intro rIdx acc h
    exact ih (rIdx + 1) _ (flattenRun_length policy pIdx rIdx r acc h)

/-- `flattenParas` preserves the length balance of the accumulator. -/
theorem flattenParas_length (policy : Char → Char → Bool) :
    ∀ (ps : List (List Run)) (pIdx : Nat) (acc : List Char × List MapEntry),
      acc.2.length = acc.1.length →
      (flattenParas policy pIdx ps acc).2.length =
        (flattenParas policy pIdx ps acc).1.length := by
  intro ps
  induction ps with
  | nil => intro pIdx acc h; exact h
  | cons runs ps ih =>
    intro pIdx acc h
    exact ih (pIdx + 1) _ (flattenRuns_length policy pIdx runs 0 acc h)

/-- Every entry emitted by `flattenRun` either was already in the
accumulator or belongs to run `(pIdx, rIdx)`: a synthetic entry (negative
offset) or a real in-bounds offset of the run's text. -/
theorem flattenRun_mem (policy : Char → Char → Bool) (pIdx rIdx : Nat) (r : Run)
    (acc : List Char × List MapEntry) (en : MapEntry)
    (h : en ∈ (flattenRun policy pIdx rIdx r acc).2) :
    en ∈ acc.2 ∨ (en.p = pIdx ∧ en.r = rIdx ∧
      (en.o < 0 ∨ (0 ≤ en.o ∧ ∃ tN, r.t = some tN ∧ en.o < ((getText tN).length : Int)))) := by
  obtain ⟨full0, map0⟩ := acc
  unfold flattenRun at h
  cases ht : r.t with
  | none =>
    rw [ht] at h
    simp only [List.mem_append, List.mem_replicate] at h
    rcases h with h | ⟨_, rfl⟩
    · exact Or.inl h
    · exact Or.inr ⟨rfl, rfl, Or.inl (show (-1 : Int) < 0 by decide)⟩
  | some tN =>
    rw [ht] at h
    simp only at h
    rcases List.mem_append.mp h with h | h
    · split at h
      · rcases List.mem_append.mp h with h | h
        · rcases List.mem_append.mp h with h | h
          · exact Or.inl h
          · obtain ⟨_, rfl⟩ := List.mem_replicate.mp h
            exact Or.inr ⟨rfl, rfl, Or.inl (show (-1 : Int) < 0 by decide)⟩
        · rw [List.mem_singleton] at h
          subst h
          exact Or.inr ⟨rfl, rfl, Or.inl (show (-2 : Int) < 0 by decide)⟩
      · rcases List.mem_append.mp h with h | h
        · exact Or.inl h
        · obtain ⟨_, rfl⟩ := List.mem_replicate.mp h
          exact Or.inr ⟨rfl, rfl, Or.inl (show (-1 : Int) < 0 by decide)⟩
    · simp only [List.mem_map, List.mem_range] at h
      obtain ⟨k, hk, rfl⟩ := h
      exact Or.inr ⟨rfl, rfl, Or.inr ⟨Int.ofNat_nonneg k, tN, rfl,
        show (k : Int) < ((getText tN).length : Int) by exact_mod_cast hk⟩⟩

/-- Every entry emitted by `flattenRuns` either was already in the
accumulator or belongs to paragraph `pIdx` and references a run of the
processed list, with a real offset in bounds of that run's text. -/
theorem flattenRuns_mem (policy : Char → Char → Bool) (pIdx : Nat) :
    ∀ (rs : List Run) (rIdx : Nat) (acc : List Char × List MapEntry) (en : MapEntry),
      en ∈ (flattenRuns policy pIdx rIdx rs acc).2 →
      en ∈ acc.2 ∨ (en.p = pIdx ∧ ∃ k run, rs.get? k = some run ∧ en.r = rIdx + k ∧
        (en.o < 0 ∨ (0 ≤ en.o ∧ ∃ tN, run.t = some tN ∧ en.o < ((getText tN).length : Int)))) := by
  intro rs
  induction rs with
  | nil => intro rIdx acc en h; exact Or.inl h
  | cons r rs ih =>
    intro rIdx acc en h
    rcases ih (rIdx + 1) _ en h with h' | ⟨hp, k, run, hk, hr, ho⟩
    · rcases flattenRun_mem policy pIdx rIdx r acc en h' with h'' | ⟨hp, hr, ho⟩
      · exact Or.inl h''
      · exact Or.inr ⟨hp, 0, r, rfl, by omega, ho⟩
    · exact Or.inr ⟨hp, k + 1, run, by simpa using hk, by omega, ho⟩

/-- Every entry emitted by `flattenParas` references an existing paragraph
and run of the processed document, with real offsets in bounds. -/
theorem flattenParas_mem (policy : Char → Char → Bool) :
    ∀ (ps : List (List Run)) (pIdx : Nat) (acc : List Char × List MapEntry) (en : MapEntry),
      en ∈ (flattenParas policy pIdx ps acc).2 →
      en ∈ acc.2 ∨ ∃ k runs, ps.get? k = some runs ∧ en.p = pIdx + k ∧
        ∃ run, runs.get? en.r = some run ∧
          (en.o < 0 ∨ (0 ≤ en.o ∧ ∃ tN, run.t = some tN ∧ en.o < ((getText tN).length : Int))) := by
  intro ps
  induction ps with
  | nil => intro pIdx acc en h; exact Or.inl h
  | cons runs ps ih =>
    intro pIdx acc en h
    rcases ih (pIdx + 1) _ en h with h' | ⟨k, rr, hk, hp, hrest⟩
    · rcases flattenRuns_mem policy pIdx runs 0 acc en h' with h'' | ⟨hp, k, run, hk, hr, ho⟩
      · exact Or.inl h''
      · refine Or.inr ⟨0, runs, rfl, by omega, run, ?_, ho⟩
        rw [show en.r = k by omega]
        exact hk
    · exact Or.inr ⟨k + 1, rr, by simpa using hk, by omega, hrest⟩

/-- C3: for every document and either join policy, the position map produced
by `indexRuns` has exactly one entry per character of the flattened text,
and every `Real` entry resolves to an existing run and an in-bounds offset
of that run's text. -/
theorem indexRuns_length_and_real_entries (policy : Char → Char → Bool)
    (plist : List (List Run)) :
    (indexRuns policy plist).map.length = (indexRuns policy plist).full.length ∧
    ∀ en ∈ (indexRuns policy plist).map, 0 ≤ en.o →
      ∃ pRuns run tN, plist.get? en.p = some pRuns ∧ pRuns.get? en.r = some run ∧
        run.t = some tN ∧ en.o < ((getText tN).length : Int) := by
  constructor
  · exact flattenParas_length policy plist 0 ([], []) rfl
  · intro en hmem ho
    rcases flattenParas_mem policy plist 0 ([], []) en hmem with h | ⟨k, runs, hk, hp, run, hr, hcase⟩
    · simp at h
    · rcases hcase with hneg | ⟨_, tN, ht, hlt⟩
      · omega
      · refine ⟨runs, run, tN, ?_, hr, ht, hlt⟩
        rw [show en.p = k by omega]
        exact hk

/-- A one-paragraph, one-run document used for the C3 witness. -/
def abRun : Run := ⟨none, some (.plain "ab".toList), 0, 0, []⟩

/-- Witness for C3 at a concrete document and the `Real` entry `⟨0, 0, 1⟩`. -/
theorem indexRuns_length_and_real_entries_witness :
    (indexRuns shouldAddSpace [[abRun]]).map.length =
      (indexRuns shouldAddSpace [[abRun]]).full.length ∧
    ∃ pRuns run tN, [[abRun]].get? 0 = some pRuns ∧ pRuns.get? 0 = some run ∧
      run.t = some tN ∧ (1 : Int) < ((getText tN).length : Int) :=
  ⟨(indexRuns_length_and_real_entries shouldAddSpace [[abRun]]).1,
   (indexRuns_length_and_real_entries shouldAddSpace [[abRun]]).2 ⟨0, 0, 1⟩
     (by decide) (by decide)⟩

/-! ### C4: the split of one run into up to three fragments -/

/-- The fragment list the claim describes for one consumed run: a `before`
fragment only if non-empty, with the original properties; a middle fragment
always, with the overlay chosen from the original (pre-mutation) properties
and the ground-truth classification of those same original properties; an
`after` fragment only if non-empty, with the original properties; the opaque
non-text children of the original run copied onto the first fragment only. -/
def splitFragments (run : Run) (styler : RPr → Bool → RPr) (txt : List Char)
    (o k : Nat) : List Run :=
  applyExtrasToHead run
    ((if (txt.take o).isEmpty then [] else
        [mkRun (txt.take o) (run.rPr.getD RPr.empty)]) ++
     [mkRun ((txt.drop o).take k)
        (styler (run.rPr.getD RPr.empty) (isBoldRed (some (run.rPr.getD RPr.empty))))] ++
     (if (txt.drop (o + k)).isEmpty then [] else
        [mkRun (txt.drop (o + k)) (run.rPr.getD RPr.empty)]))

/-- JS indexing at a natural-number position is plain list lookup. -/
theorem jsIndex_natCast {α : Type} (l : List α) (n : Nat) :
    jsIndex l (n : Int) = l.get? n := by
  unfold jsIndex
  rw [if_pos (Int.natCast_nonneg n), Int.toNat_natCast]

/-- Taking at an index clamped to the length is plain `take`. -/
theorem take_min_length (l : List Char) (n : Nat) :
    l.take (min n l.length) = l.take n := by
  rcases Nat.le_total n l.length with h | h
  · rw [Nat.min_eq_left h]
  · rw [Nat.min_eq_right h, List.take_length, List.take_of_length_le h]

/-- Dropping at a clamped index agrees with plain `drop` on any list no
longer than the clamp bound. -/
theorem drop_min_length (xs : List Char) (len a : Nat) (hxs : xs.length ≤ len) :
    xs.drop (min a len) = xs.drop a := by
  rcases Nat.le_total a len with h | h
  · rw [Nat.min_eq_left h]
  · rw [Nat.min_eq_right h, List.drop_eq_nil_of_le hxs,
        List.drop_eq_nil_of_le (le_trans hxs h)]

/-- `slice` at natural-number indices is `take` then `drop`. -/
theorem jsSlice_natCast (l : List Char) (a b : Nat) :
    jsSlice l (a : Int) (b : Int) = (l.take b).drop a := by
  unfold jsSlice jsSliceIndex
  rw [if_neg (by omega : ¬ (b : Int) < 0), if_neg (by omega : ¬ (a : Int) < 0),
      Int.toNat_natCast, Int.toNat_natCast, take_min_length]
  exact drop_min_length (l.take b) l.length a (by simp)

/-- `slice` from zero is `take`. -/
theorem jsSlice_zero (l : List Char) (b : Nat) : jsSlice l 0 (b : Int) = l.take b := by
  have h := jsSlice_natCast l 0 b
  simpa using h

/-- A loop invocation whose cursor has already reached the stop position
returns the state unchanged, whatever the fuel. -/
theorem spliceLoop_of_not_lt (styler : RPr → Bool → RPr) (stop : Int) (fuel : Nat)
    (i : Int) (plist : List (List Run)) (map : List MapEntry) (h : ¬ i < stop) :
    spliceLoop styler stop fuel i plist map = (plist, map, false) := by
  cases fuel with
  | zero => rfl
  | succ f =>
    unfold spliceLoop
    rw [if_neg h]

/-- `runTexts` distributes over appending. -/
theorem runTexts_append (a b : List Run) : runTexts (a ++ b) = runTexts a ++ runTexts b := by
  simp [runTexts]

/-- Copying the opaque children onto the head fragment does not change any
fragment's text. -/
theorem runTexts_applyExtrasToHead (src : Run) (l : List Run) :
    runTexts (applyExtrasToHead src l) = runTexts l := by
  cases l with
  | nil => rfl
  | cons r rs => simp [applyExtrasToHead, runTexts]

/-- The text of a single constructed run. -/
theorem runTexts_mkRun (x : List Char) (pr : RPr) : runTexts [mkRun x pr] = x := by
  simp [runTexts, mkRun, getText]

/-- The text of an optional (empty-suppressed) constructed fragment. -/
theorem runTexts_optFrag (x : List Char) (pr : RPr) :
    runTexts (if x.isEmpty then [] else [mkRun x pr]) = x := by
  by_cases h : x.isEmpty
  · rw [if_pos h, List.isEmpty_iff.mp h]
    rfl
  · rw [if_neg h]
    exact runTexts_mkRun x pr

/-- The text of a cons cell of runs. -/
theorem runTexts_cons (r : Run) (rs : List Run) :
    runTexts (r :: rs) = ((r.t.map getText).getD []) ++ runTexts rs := by
  simp [runTexts]

/-- C4: whenever `applyStyleToRange` is given a valid range that maps into
`Real` characters of a single run (the range fits inside the run from the
start entry's offset on), the spliced paragraph replaces that run by exactly
the claim's fragment list: optional `before` with original properties,
mandatory middle with `styler` applied to the original properties and the
ground-truth classification of the original properties, optional `after`
with original properties, opaque children on the first fragment only; the
flattened text is unchanged, the concatenated run text of the paragraph is
preserved, and no exception escapes. -/
theorem applyStyleToRange_single_run_split
    (st : Struct) (s e p r o : Nat) (pRuns : List Run) (run : Run) (tN : TNode)
    (styler : RPr → Bool → RPr)
    (hmem : st.map.get? s = some ⟨p, r, (o : Int)⟩)
    (hp : st.plist.get? p = some pRuns)
    (hr : pRuns.get? r = some run)
    (ht : run.t = some tN)
    (hse : s < e)
    (hlen : e ≤ st.map.length)
    (htake : e - s ≤ (getText tN).length - o) :
    (applyStyleToRange st (s : Int) (e : Int) styler).1.plist =
      st.plist.set p (pRuns.take r ++ splitFragments run styler (getText tN) o (e - s) ++
        pRuns.drop (r + 1)) ∧
    (applyStyleToRange st (s : Int) (e : Int) styler).1.full = st.full ∧
    runTexts (pRuns.take r ++ splitFragments run styler (getText tN) o (e - s) ++
        pRuns.drop (r + 1)) = runTexts pRuns ∧
    (applyStyleToRange st (s : Int) (e : Int) styler).2 = false := by
  have ho : o < (getText tN).length := by omega
  have hslt : ((s : Int) < (e : Int)) := by exact_mod_cast hse
  have hg : ¬ ((s : Int) < 0 ∨ (e : Int) ≤ (s : Int) ∨ (e : Int) > (st.map.length : Int)) := by
    omega
  have hfuel : ((e : Int) - (s : Int)).toNat = e - s := by omega
  have hlenlast : e - 1 < st.map.length := by omega
  have hlast : st.map.get? (e - 1) = some (st.map.get ⟨e - 1, hlenlast⟩) :=
    List.get?_eq_get hlenlast
  have he1 : (e : Int) - 1 = ((e - 1 : Nat) : Int) := by omega
  have c1 : (((s : Int) < (e : Int))) = True := eq_true hslt
  have c2 : (((o : Int) = -1 ∨ (o : Int) = -2)) = False := eq_false (by omega)
  have hmin : min (((getText tN).length : Int) - (o : Int)) ((e : Int) - (s : Int)) =
      (e : Int) - (s : Int) := by
    rw [min_eq_right]
    omega
  have hsum : ((o : Int) + ((e : Int) - (s : Int))) = ((o + (e - s) : Nat) : Int) := by
    push_cast
    omega
  have harith : o + (e - s) - o = e - s := by omega
  have hie : ((s : Int) + ((e : Int) - (s : Int))) = (e : Int) := by omega
  have hnot : ¬ ((e : Int) < (e : Int)) := lt_irrefl _
  have hloop : spliceLoop styler (e : Int) (e - s) (s : Int) st.plist st.map =
      (st.plist.set p (pRuns.take r ++ splitFragments run styler (getText tN) o (e - s) ++
         pRuns.drop (r + 1)),
       rebuildParaMap p (pRuns.take r ++ splitFragments run styler (getText tN) o (e - s) ++
         pRuns.drop (r + 1)) st.map, false) := by
    obtain ⟨k, hk⟩ : ∃ k, e - s = k + 1 := ⟨e - s - 1, by omega⟩
    nth_rewrite 1 [hk]
    simp only [spliceLoop, jsIndex_natCast, hmem, hp, hr, ht, c1, c2, if_true, if_false,
      hmin, hsum, hie, jsSlice_zero, jsSlice_natCast, List.drop_take, List.take_length,
      harith, splitFragments, spliceLoop_of_not_lt _ _ _ _ _ _ hnot]
  have hmain : applyStyleToRange st (s : Int) (e : Int) styler =
      ({ st with
          plist := st.plist.set p (pRuns.take r ++
            splitFragments run styler (getText tN) o (e - s) ++ pRuns.drop (r + 1)),
          map := rebuildParaMap p (pRuns.take r ++
            splitFragments run styler (getText tN) o (e - s) ++ pRuns.drop (r + 1)) st.map },
       false) := by
    unfold applyStyleToRange
    rw [if_neg hg, he1]
    simp only [jsIndex_natCast, hmem, hlast, hfuel, hloop]
  have hPR : runTexts (pRuns.take r ++ splitFragments run styler (getText tN) o (e - s) ++
      pRuns.drop (r + 1)) = runTexts pRuns := by
    obtain ⟨hrl, hget⟩ := List.get?_eq_some.mp hr
    have hdrop : pRuns.drop r = run :: pRuns.drop (r + 1) := by
      rw [List.drop_eq_getElem_cons hrl]
      exact congrArg (fun x => x :: pRuns.drop (r + 1)) hget
    have hdecomp : pRuns.take r ++ (run :: pRuns.drop (r + 1)) = pRuns := by
      rw [← hdrop, List.take_append_drop]
    have hcat : (getText tN).take o ++ ((getText tN).drop o).take (e - s) ++
        (getText tN).drop (o + (e - s)) = getText tN := by
      rw [List.append_assoc,
          show (getText tN).drop (o + (e - s)) = ((getText tN).drop o).drop (e - s) from
            (List.drop_drop (e - s) o (getText tN)).symm,
          List.take_append_drop, List.take_append_drop]
    have hSF : runTexts (splitFragments run styler (getText tN) o (e - s)) = getText tN := by
      unfold splitFragments
      rw [runTexts_applyExtrasToHead, runTexts_append, runTexts_append,
          runTexts_optFrag, runTexts_mkRun, runTexts_optFrag]
      exact hcat
    rw [runTexts_append, runTexts_append, hSF]
    conv_rhs => rw [← hdecomp]
    rw [runTexts_append, runTexts_cons, ht]
    simp
  exact ⟨by rw [hmain], by rw [hmain], hPR, by rw [hmain]⟩

/-- Witness for C4: the specification's scenario.  One paragraph, one run
`"Dr. Andreas König"` with bold+red properties, detection range `[4, 17)`
(`"Andreas König"`), ground-truth styler: the run splits into `"Dr. "` with
the original properties and `"Andreas König"` with the ground-truth overlay,
with no `after` fragment, and the flattened text is unchanged. -/
theorem applyStyleToRange_single_run_split_witness :
    (applyStyleToRange koenigStruct 4 17 stylerExact).1.plist =
      [[⟨some koenigRPr, some (.node "Dr. ".toList), 0, 0, []⟩,
        ⟨some ⟨some .emptyObj, some .emptyObj, some (.valObj "single"),
               some (.valObj "FF0000"), []⟩,
         some (.node "Andreas König".toList), 0, 0, []⟩]] ∧
    (applyStyleToRange koenigStruct 4 17 stylerExact).1.full = koenigStruct.full ∧
    (applyStyleToRange koenigStruct 4 17 stylerExact).2 = false := by
  obtain ⟨h1, h2, h3, h4⟩ :=
    applyStyleToRange_single_run_split koenigStruct 4 17 0 0 4 [koenigRun] koenigRun
      (.plain "Dr. Andreas König".toList) stylerExact (by decide) (by decide) (by decide)
      (by decide) (by decide) (by decide) (by decide)
  refine ⟨?_, ?_, ?_⟩
  · exact h1.trans (by decide)
  · exact h2
  · exact h4

end PiiRev
